import Mathlib

/-
Shallow embedding of the brainfuck interpreters in this repository.

The repository holds three near-duplicate copies of the same C program:
  src/bf.c                  (function interpret, lines 41-140)
  src/brainfuck.c           (function interpret, lines 38-130)
  src/brainfuck/brainfuck.c (function interpret, lines 32-122)

All three run a byte-addressed doubly linked tape (struct node) under a
dispatch loop `for (i = 0; i < fsize; ++i) switch (str[i]) ...`.  The three
copies differ in exactly two places:
  - the forward bracket scan's do-while bound: `i < fsize - 1` in bf.c and
    brainfuck.c, but `i < fsize` in brainfuck/brainfuck.c;
  - the `.` case: bf.c checks `putchar` for EOF and returns INT_IOERR,
    the other two ignore the result of `putchar`.
We embed the common text once, parameterized by a `Variant` record holding
those two differences, and instantiate it three times.

Modelling conventions:
  - `unsigned char` cells and raw program/input/output bytes are `ZMod 256`
    (exactly mod-256 arithmetic; assigning `getchar()`'s EOF = -1 to an
    unsigned char gives 255 = (-1 : ZMod 256)).
  - the tape linked list is a zipper; `malloc` is modelled as succeeding
    (no claim concerns INT_MEMERR).
  - the input stream is the list of bytes `getchar` has yet to deliver; an
    empty list is end-of-input (getchar returns EOF = -1).
  - `putchar` is modelled by a predicate `wAcc : Nat → Bool` saying whether
    the k-th write attempt is accepted; an accepted write appends the byte
    to the output list, a rejected one appends nothing (putchar returned
    EOF, i.e. the byte did not reach the stream).
  - the program text is a `List Byte` of length fsize.  The C scans can
    read `str[fsize]`, one byte past the malloc'd buffer (undefined
    behaviour in C); we model that read as returning an unspecified byte
    `oob` over which the interpreter is parameterized.  In-bounds reads
    never consult `oob`.
  - `size_t` indices are `Nat`.  The backward scan's underflow (`--i` from
    0 wraps to SIZE_MAX, caught by `i >= fsize` in bf.c / brainfuck.c and
    by `i > fsize` in brainfuck/brainfuck.c, both true for the wrapped
    value since fsize < SIZE_MAX for a buffer that exists in memory) is
    modelled directly as the test `i = 0` before decrementing.
  - the C functions run to completion or error; the Lean loop takes fuel
    and returns `none` when the fuel is exhausted.
-/

/-- A byte, the value set of `unsigned char` with its wraparound arithmetic. -/
abbrev Byte := ZMod 256

/-- ASCII code of the instruction character `+`. -/
def plusB : Byte := 43

/-- ASCII code of the instruction character `-`. -/
def minusB : Byte := 45

/-- ASCII code of the instruction character `<`. -/
def ltB : Byte := 60

/-- ASCII code of the instruction character `>`. -/
def gtB : Byte := 62

/-- ASCII code of the instruction character `.`. -/
def dotB : Byte := 46

/-- ASCII code of the instruction character `,`. -/
def commaB : Byte := 44

/-- ASCII code of the instruction character `[`. -/
def lbrB : Byte := 91

/-- ASCII code of the instruction character `]`. -/
def rbrB : Byte := 93

/-- The cases of the C `switch (str[i])`: the eight instruction bytes, and
the `default:` case for every other byte (inert). -/
inductive Instr where
  | plus | minus | left | right | dot | comma | lbr | rbr | nop
deriving DecidableEq

/-- Which `case` label of the `switch` a byte selects. -/
def decode (b : Byte) : Instr :=
  if b = plusB then .plus
  else if b = minusB then .minus
  else if b = ltB then .left
  else if b = gtB then .right
  else if b = dotB then .dot
  else if b = commaB then .comma
  else if b = lbrB then .lbr
  else if b = rbrB then .rbr
  else .nop

/-- The doubly linked tape (`struct node`) as a zipper: the cells strictly
to the left of the data pointer (nearest first), the current cell's value
`c` (field name from `struct node`), and the cells strictly to the right
(nearest first).  An empty list on a side means no node is materialized
there yet (`prev`/`next` is NULL). -/
structure Tape where
  left : List Byte
  c : Byte
  right : List Byte
deriving DecidableEq

/-- The tape `main` hands to `interpret`: one zero node, no neighbours. -/
def Tape.init : Tape := ⟨[], 0, []⟩

/-- `case '+': ++ptr->c;` -/
def Tape.inc (t : Tape) : Tape := { t with c := t.c + 1 }

/-- `case '-': --ptr->c;` -/
def Tape.dec (t : Tape) : Tape := { t with c := t.c - 1 }

/-- `ptr->c = b;` (used by the `,` case). -/
def Tape.setC (t : Tape) (b : Byte) : Tape := { t with c := b }

/-- `case '<'`: if no node exists on the left, materialize a zero node
(malloc modelled as succeeding), then move the pointer left. -/
def Tape.moveLeft (t : Tape) : Tape :=
  match t.left with
  | [] => ⟨[], 0, t.c :: t.right⟩
  | x :: xs => ⟨xs, x, t.c :: t.right⟩

/-- `case '>'`: if no node exists on the right, materialize a zero node,
then move the pointer right. -/
def Tape.moveRight (t : Tape) : Tape :=
  match t.right with
  | [] => ⟨t.c :: t.left, 0, []⟩
  | x :: xs => ⟨t.c :: t.left, x, xs⟩

/-- The value of the cell at signed offset `k` from the data pointer
(0 is the current cell).  A cell not yet materialized reads as 0, which is
the value it would be created with. -/
def Tape.valueAt (t : Tape) : Int → Byte
  | Int.ofNat 0 => t.c
  | Int.ofNat (n + 1) => t.right.getD n 0
  | Int.negSucc n => t.left.getD n 0

/-- The return values of the C `interpret` functions.  bf.c names them via
`typedef enum { INT_SUCC, INT_INVL, INT_MEMERR, INT_IOERR } INT_STAT`; the
other two files return the same numbers 0/1/2 as plain `int`. -/
inductive INT_STAT where
  | INT_SUCC | INT_INVL | INT_MEMERR | INT_IOERR
deriving DecidableEq

/-- The two textual differences between the three copies of `interpret`. -/
structure Variant where
  /-- forward-scan do-while bound: `i < fsize` when true
  (brainfuck/brainfuck.c), `i < fsize - 1` when false (bf.c, brainfuck.c). -/
  fwdFull : Bool
  /-- whether the `.` case checks `putchar` for EOF (bf.c only). -/
  ioCheck : Bool
deriving DecidableEq

/-- src/bf.c. -/
def bfVariant : Variant := ⟨false, true⟩

/-- src/brainfuck.c. -/
def brainfuckVariant : Variant := ⟨false, false⟩

/-- src/brainfuck/brainfuck.c. -/
def brainfuckDirVariant : Variant := ⟨true, false⟩

/-- The balance update of the forward bracket scan (`case '['` with
`!ptr->c`) on one scanned byte:
`if (str[i] == '[') ++bal; if (str[i] == ']') --bal;`.  The whole scan is
`bal = 1; do { ++i; if (str[i] == '[') ++bal; if (str[i] == ']') --bal; }
while (bal && i < limit);` where `limit` is `fsize - 1` or `fsize`
depending on the variant.  In `fwdScanAux`, `g j` is the byte read at
index `j` (its value at `j = fsize` is the unspecified byte one past the
malloc'd buffer).  The do-while's `i` only ever grows and the loop
continues only while `i < limit`, so we drive the recursion by the count
`limit - i - 1` of iterations the condition still allows, which decreases
structurally: `fwdScanAux g n bal i` is the do-while entered at position
`i` with balance `bal` when `n = limit - (i + 1)`; it returns the final
`(bal, i)`. -/
def balStepF (bal : Nat) (b : Byte) : Nat :=
  if b = lbrB then bal + 1 else if b = rbrB then bal - 1 else bal

/-- The iterations of the forward scan's do-while (see `balStepF`). -/
def fwdScanAux (g : Nat → Byte) : Nat → Nat → Nat → Nat × Nat
  | 0, bal, i => (balStepF bal (g (i + 1)), i + 1)
  | n + 1, bal, i =>
    if balStepF bal (g (i + 1)) ≠ 0 then
      fwdScanAux g n (balStepF bal (g (i + 1))) (i + 1)
    else (balStepF bal (g (i + 1)), i + 1)

/-- The forward bracket scan: the do-while of `case '['` entered with
balance `bal` at the position `i` of the `[`. -/
def fwdScan (g : Nat → Byte) (limit : Nat) (bal i : Nat) : Nat × Nat :=
  fwdScanAux g (limit - (i + 1)) bal i

/-- The same loop as `fwdScanAux`, instrumented to return the list of
program indices it reads (`str[i]` after each `++i`). -/
def fwdScanReadsAux (g : Nat → Byte) : Nat → Nat → Nat → List Nat
  | 0, _, i => [i + 1]
  | n + 1, bal, i =>
    if balStepF bal (g (i + 1)) ≠ 0 then
      (i + 1) :: fwdScanReadsAux g n (balStepF bal (g (i + 1))) (i + 1)
    else [i + 1]

/-- The indices the forward bracket scan reads. -/
def fwdScanReads (g : Nat → Byte) (limit : Nat) (bal i : Nat) : List Nat :=
  fwdScanReadsAux g (limit - (i + 1)) bal i

/-- The backward bracket scan, `case ']'` with `ptr->c`:
`bal = 1; do { --i; if (i >= fsize) return INT_INVL; if (str[i] == ']')
++bal; if (str[i] == '[') --bal; } while (bal);`.  The `i >= fsize` test
fires exactly when `--i` underflowed `size_t`, i.e. when `i` was 0 (see
the header comment); `none` is that early `return INT_INVL`.  On success
returns the index the scan stopped at; its balance update per scanned
byte (`if (str[i] == ']') ++bal; if (str[i] == '[') --bal;`) is
`balStepB`. -/
def balStepB (bal : Nat) (b : Byte) : Nat :=
  if b = rbrB then bal + 1 else if b = lbrB then bal - 1 else bal

/-- The backward scan's do-while (see `balStepB`). -/
def bwdScan (g : Nat → Byte) : Nat → Nat → Option Nat
  | _, 0 => none
  | bal, i + 1 =>
    if balStepB bal (g i) ≠ 0 then bwdScan g (balStepB bal (g i)) i else some i

/-- The execution state of `interpret` between two iterations of its
`for` loop: the index `i`, the persistent local `bal` (read by the final
`return bal ? INT_INVL : INT_SUCC`), the tape, the bytes `getchar` has yet
to deliver, the bytes written so far, and the number of `putchar` attempts
so far. -/
structure St where
  i : Nat
  bal : Nat
  tape : Tape
  inp : List Byte
  out : List Byte
  nw : Nat
deriving DecidableEq

/-- Outcome of one iteration of the `for` body: an early `return` with the
status (paired with the state at that moment), or the next state, with `i`
already advanced by the loop's `++i`. -/
inductive StepRes where
  | halt (r : INT_STAT × St)
  | next (s : St)
deriving DecidableEq

/-- One iteration of `for (i = 0; i < fsize; ++i) { switch (str[i]) ... }`:
the switch body followed by the `++i`.  Requires `s.i < prog.length` to be
meaningful (the for condition, checked by `loop`). -/
def execOne (v : Variant) (oob : Byte) (wAcc : Nat → Bool) (prog : List Byte)
    (s : St) : StepRes :=
  match decode (prog.getD s.i 0) with
  | .plus => .next { s with tape := s.tape.inc, i := s.i + 1 }
  | .minus => .next { s with tape := s.tape.dec, i := s.i + 1 }
  | .left => .next { s with tape := s.tape.moveLeft, i := s.i + 1 }
  | .right => .next { s with tape := s.tape.moveRight, i := s.i + 1 }
  | .dot =>
      if wAcc s.nw then
        .next { s with out := s.out ++ [s.tape.c], nw := s.nw + 1, i := s.i + 1 }
      else if v.ioCheck then .halt (.INT_IOERR, s)
      else .next { s with nw := s.nw + 1, i := s.i + 1 }
  | .comma =>
      match s.inp with
      | [] => .next { s with tape := s.tape.setC 255, i := s.i + 1 }
      | x :: rest => .next { s with tape := s.tape.setC x, inp := rest, i := s.i + 1 }
  | .lbr =>
      if s.tape.c = 0 then
        let limit := if v.fwdFull then prog.length else prog.length - 1
        let r := fwdScan (fun j => prog.getD j oob) limit 1 s.i
        .next { s with bal := r.1, i := r.2 + 1 }
      else .next { s with i := s.i + 1 }
  | .rbr =>
      if s.tape.c = 0 then .next { s with i := s.i + 1 }
      else
        match bwdScan (fun j => prog.getD j oob) 1 s.i with
        | none => .halt (.INT_INVL, s)
        | some m => .next { s with bal := 0, i := m + 1 }
  | .nop => .next { s with i := s.i + 1 }

/-- The `for` loop of `interpret` plus the final
`return bal ? INT_INVL : INT_SUCC`, driven by fuel (`none` = fuel ran
out).  The returned state records the output written and the tape at the
moment `interpret` returned. -/
def loop (v : Variant) (oob : Byte) (wAcc : Nat → Bool) (prog : List Byte) :
    Nat → St → Option (INT_STAT × St)
  | 0, _ => none
  | fuel + 1, s =>
    if s.i < prog.length then
      match execOne v oob wAcc prog s with
      | .halt r => some r
      | .next s' => loop v oob wAcc prog fuel s'
    else
      some (if s.bal ≠ 0 then (.INT_INVL, s) else (.INT_SUCC, s))

/-- The state `interpret` starts from: `i = 0`, `bal = 0`, the fresh tape
built by `main`, the whole input still pending, nothing written. -/
def initSt (inp : List Byte) : St := ⟨0, 0, Tape.init, inp, [], 0⟩

/-- putchar accepting every write. -/
def accAll : Nat → Bool := fun _ => true

namespace Bf

/-- `interpret` of src/bf.c, run from the state `main` sets up. -/
def interpret (oob : Byte) (wAcc : Nat → Bool) (prog inp : List Byte)
    (fuel : Nat) : Option (INT_STAT × St) :=
  loop bfVariant oob wAcc prog fuel (initSt inp)

end Bf

namespace Brainfuck

/-- `interpret` of src/brainfuck.c (returns `int`; 0/1/2 are rendered as
INT_SUCC/INT_INVL/INT_MEMERR). -/
def interpret (oob : Byte) (wAcc : Nat → Bool) (prog inp : List Byte)
    (fuel : Nat) : Option (INT_STAT × St) :=
  loop brainfuckVariant oob wAcc prog fuel (initSt inp)

end Brainfuck

namespace BrainfuckDir

/-- `interpret` of src/brainfuck/brainfuck.c. -/
def interpret (oob : Byte) (wAcc : Nat → Bool) (prog inp : List Byte)
    (fuel : Nat) : Option (INT_STAT × St) :=
  loop brainfuckDirVariant oob wAcc prog fuel (initSt inp)

end BrainfuckDir

/-- What the C process makes observable of a run: the returned status and
the bytes written to stdout. -/
def obs : Option (INT_STAT × St) → Option (INT_STAT × List Byte) :=
  Option.map fun r => (r.1, r.2.out)

/-- The forward match as worded in claim C2 and the spec's bracket-matching
algorithm: a balance-counted forward scan over the bytes of the program
(incrementing on `[`, decrementing on `]`, ignoring all other bytes) that
either lands on the matching `]` or exhausts the program.  `n` is the
number of in-bounds positions still ahead of the scan. -/
def specFwdMatchAux (prog : List Byte) : Nat → Nat → Nat → Option Nat
  | 0, _, _ => none
  | n + 1, bal, i =>
    if balStepF bal (prog.getD (i + 1) 0) = 0 then some (i + 1)
    else specFwdMatchAux prog n (balStepF bal (prog.getD (i + 1) 0)) (i + 1)

/-- The claim-side forward match started at the position `i` of a `[` with
balance `bal`: `some m` when the matching `]` is at index `m`, `none` when
the scan exhausts the program first. -/
def specFwdMatch (prog : List Byte) (bal i : Nat) : Option Nat :=
  specFwdMatchAux prog (prog.length - (i + 1)) bal i

/-- The net count of claim C6: increments minus decrements. -/
def netCount : List Byte → Int
  | [] => 0
  | b :: rest =>
    (if decode b = .plus then 1 else if decode b = .minus then -1 else 0) + netCount rest

/-- A single data-pointer move, for claim C9's move sequences. -/
inductive Mv where
  | left | right
deriving DecidableEq

/-- Apply a sequence of `<`/`>` moves to the tape, left to right. -/
def Tape.applyMoves : Tape → List Mv → Tape
  | t, [] => t
  | t, .left :: ms => t.moveLeft.applyMoves ms
  | t, .right :: ms => t.moveRight.applyMoves ms

/-- Net displacement of a move sequence: `>` counts +1, `<` counts -1. -/
def mvDisp : List Mv → Int
  | [] => 0
  | .left :: ms => mvDisp ms - 1
  | .right :: ms => mvDisp ms + 1

/-- The byte-for-byte echo program `,[.,]` of claim C4. -/
def echoProg : List Byte := [commaB, lbrB, dotB, commaB, rbrB]

/- ## General lemmas about the embedding -/

/-- Adding fuel does not change an already-determined run. -/
theorem loop_mono (v : Variant) (oob : Byte) (wAcc : Nat → Bool) (prog : List Byte) :
    ∀ f g s r, loop v oob wAcc prog f s = some r → f ≤ g →
      loop v oob wAcc prog g s = some r := by
  intro f
  induction f with
  | zero => intro g s r h _; simp [loop] at h
  | succ f ih =>
    intro g s r h hle
    match g, hle with
    | g + 1, hle =>
      rw [loop] at h ⊢
      by_cases hlt : s.i < prog.length
      · simp only [if_pos hlt] at h ⊢
        cases hex : execOne v oob wAcc prog s with
        | halt r' => rw [hex] at h; exact h
        | next s' => rw [hex] at h; exact ih g s' r h (by omega)
      · simp only [if_neg hlt] at h ⊢; exact h

/-- `getD` does not depend on the default value in bounds. -/
theorem getD_irrel (l : List Byte) (n : Nat) (d d' : Byte) (h : n < l.length) :
    l.getD n d = l.getD n d' := by
  rw [List.getD_eq_getElem l d h, List.getD_eq_getElem l d' h]

/-- Moving left shifts every relative cell coordinate up by one. -/
theorem Tape.moveLeft_valueAt (t : Tape) (k : Int) :
    t.moveLeft.valueAt k = t.valueAt (k - 1) := by
  rcases t with ⟨L, c, R⟩
  cases L with
  | nil =>
    cases k with
    | ofNat n =>
      cases n with
      | zero =>
        have h1 : (Int.ofNat 0) - 1 = Int.negSucc 0 := by first | omega | (simp only [Int.ofNat_eq_natCast, Int.negSucc_eq]; push_cast; try omega)
        rw [h1]; simp [Tape.moveLeft, Tape.valueAt]
      | succ n =>
        have h1 : (Int.ofNat (n + 1)) - 1 = Int.ofNat n := by first | omega | (simp only [Int.ofNat_eq_natCast, Int.negSucc_eq]; push_cast; try omega)
        rw [h1]
        cases n with
        | zero => simp [Tape.moveLeft, Tape.valueAt]
        | succ n => simp [Tape.moveLeft, Tape.valueAt]
    | negSucc n =>
      have h1 : (Int.negSucc n) - 1 = Int.negSucc (n + 1) := by first | omega | (simp only [Int.ofNat_eq_natCast, Int.negSucc_eq]; push_cast; try omega)
      rw [h1]; simp [Tape.moveLeft, Tape.valueAt]
  | cons x xs =>
    cases k with
    | ofNat n =>
      cases n with
      | zero =>
        have h1 : (Int.ofNat 0) - 1 = Int.negSucc 0 := by first | omega | (simp only [Int.ofNat_eq_natCast, Int.negSucc_eq]; push_cast; try omega)
        rw [h1]; simp [Tape.moveLeft, Tape.valueAt]
      | succ n =>
        have h1 : (Int.ofNat (n + 1)) - 1 = Int.ofNat n := by first | omega | (simp only [Int.ofNat_eq_natCast, Int.negSucc_eq]; push_cast; try omega)
        rw [h1]
        cases n with
        | zero => simp [Tape.moveLeft, Tape.valueAt]
        | succ n => simp [Tape.moveLeft, Tape.valueAt]
    | negSucc n =>
      have h1 : (Int.negSucc n) - 1 = Int.negSucc (n + 1) := by first | omega | (simp only [Int.ofNat_eq_natCast, Int.negSucc_eq]; push_cast; try omega)
      rw [h1]; simp [Tape.moveLeft, Tape.valueAt]

/-- Moving right shifts every relative cell coordinate down by one. -/
theorem Tape.moveRight_valueAt (t : Tape) (k : Int) :
    t.moveRight.valueAt k = t.valueAt (k + 1) := by
  rcases t with ⟨L, c, R⟩
  cases R with
  | nil =>
    cases k with
    | ofNat n =>
      have h1 : (Int.ofNat n) + 1 = Int.ofNat (n + 1) := by first | omega | (simp only [Int.ofNat_eq_natCast, Int.negSucc_eq]; push_cast; try omega)
      rw [h1]
      cases n with
      | zero => simp [Tape.moveRight, Tape.valueAt]
      | succ n => simp [Tape.moveRight, Tape.valueAt]
    | negSucc n =>
      cases n with
      | zero =>
        have h1 : (Int.negSucc 0) + 1 = Int.ofNat 0 := by first | omega | (simp only [Int.ofNat_eq_natCast, Int.negSucc_eq]; push_cast; try omega)
        rw [h1]; simp [Tape.moveRight, Tape.valueAt]
      | succ n =>
        have h1 : (Int.negSucc (n + 1)) + 1 = Int.negSucc n := by first | omega | (simp only [Int.ofNat_eq_natCast, Int.negSucc_eq]; push_cast; try omega)
        rw [h1]; simp [Tape.moveRight, Tape.valueAt]
  | cons x xs =>
    cases k with
    | ofNat n =>
      have h1 : (Int.ofNat n) + 1 = Int.ofNat (n + 1) := by first | omega | (simp only [Int.ofNat_eq_natCast, Int.negSucc_eq]; push_cast; try omega)
      rw [h1]
      cases n with
      | zero => simp [Tape.moveRight, Tape.valueAt]
      | succ n => simp [Tape.moveRight, Tape.valueAt]
    | negSucc n =>
      cases n with
      | zero =>
        have h1 : (Int.negSucc 0) + 1 = Int.ofNat 0 := by first | omega | (simp only [Int.ofNat_eq_natCast, Int.negSucc_eq]; push_cast; try omega)
        rw [h1]; simp [Tape.moveRight, Tape.valueAt]
      | succ n =>
        have h1 : (Int.negSucc (n + 1)) + 1 = Int.negSucc n := by first | omega | (simp only [Int.ofNat_eq_natCast, Int.negSucc_eq]; push_cast; try omega)
        rw [h1]; simp [Tape.moveRight, Tape.valueAt]

/-- A sequence of moves re-indexes the tape by its net displacement and
loses no cell value. -/
theorem Tape.applyMoves_valueAt (ms : List Mv) : ∀ (t : Tape) (k : Int),
    (t.applyMoves ms).valueAt k = t.valueAt (k + mvDisp ms) := by
  induction ms with
  | nil => intro t k; simp [Tape.applyMoves, mvDisp]
  | cons m ms ih =>
    intro t k
    cases m with
    | left =>
      have h1 : Tape.applyMoves t (.left :: ms) = t.moveLeft.applyMoves ms := rfl
      rw [h1, ih, Tape.moveLeft_valueAt]
      have h2 : k + mvDisp ms - 1 = k + (mvDisp ms - 1) := by omega
      rw [h2]; rfl
    | right =>
      have h1 : Tape.applyMoves t (.right :: ms) = t.moveRight.applyMoves ms := rfl
      rw [h1, ih, Tape.moveRight_valueAt]
      have h2 : k + mvDisp ms + 1 = k + (mvDisp ms + 1) := by omega
      rw [h2]; rfl

/- ## Step characterizations of single switch cases -/

/-- The `,` case with input exhausted: `ptr->c = getchar()` stores
EOF = -1, truncated to the unsigned char 255. -/
theorem execOne_comma_nil (v : Variant) (oob : Byte) (wAcc : Nat → Bool)
    (prog : List Byte) (s : St) (hb : decode (prog.getD s.i 0) = .comma)
    (hin : s.inp = []) :
    execOne v oob wAcc prog s = .next { s with tape := s.tape.setC 255, i := s.i + 1 } := by
  unfold execOne
  rw [hb, hin]

/-- The `.` case when `putchar` rejects the write, in a variant that
checks it (bf.c): the immediate `return INT_IOERR`. -/
theorem execOne_dot_rejected_check (v : Variant) (oob : Byte) (wAcc : Nat → Bool)
    (prog : List Byte) (s : St) (hb : decode (prog.getD s.i 0) = .dot)
    (hw : wAcc s.nw = false) (hv : v.ioCheck = true) :
    execOne v oob wAcc prog s = .halt (.INT_IOERR, s) := by
  unfold execOne
  rw [hb]
  simp [hw, hv]

/-- The `.` case when `putchar` rejects the write, in a variant that
ignores the result (brainfuck.c, brainfuck/brainfuck.c): execution simply
continues, the byte unwritten. -/
theorem execOne_dot_rejected_nocheck (v : Variant) (oob : Byte) (wAcc : Nat → Bool)
    (prog : List Byte) (s : St) (hb : decode (prog.getD s.i 0) = .dot)
    (hw : wAcc s.nw = false) (hv : v.ioCheck = false) :
    execOne v oob wAcc prog s = .next { s with nw := s.nw + 1, i := s.i + 1 } := by
  unfold execOne
  rw [hb]
  simp [hw, hv]

/-- The `]` case with a nonzero cell and a successful backward scan:
the scan leaves `i` at the position it stopped at and `bal` at 0, and the
for loop's `++i` then moves one past it. -/
theorem execOne_rbr_jump (v : Variant) (oob : Byte) (wAcc : Nat → Bool)
    (prog : List Byte) (s : St) (m : Nat) (hb : decode (prog.getD s.i 0) = .rbr)
    (hc : s.tape.c ≠ 0)
    (hscan : bwdScan (fun j => prog.getD j oob) 1 s.i = some m) :
    execOne v oob wAcc prog s = .next { s with bal := 0, i := m + 1 } := by
  unfold execOne
  rw [hb]
  simp only [if_neg hc, hscan]

/-- The `[` case with a zero cell: the forward scan runs and leaves its
final balance in `bal` and its final position plus the for loop's `++i`
in `i`. -/
theorem execOne_lbr_zero (v : Variant) (oob : Byte) (wAcc : Nat → Bool)
    (prog : List Byte) (s : St) (hb : decode (prog.getD s.i 0) = .lbr)
    (hc : s.tape.c = 0) :
    execOne v oob wAcc prog s =
      .next { s with
        bal := (fwdScan (fun j => prog.getD j oob)
          (if v.fwdFull then prog.length else prog.length - 1) 1 s.i).1,
        i := (fwdScan (fun j => prog.getD j oob)
          (if v.fwdFull then prog.length else prog.length - 1) 1 s.i).2 + 1 } := by
  unfold execOne
  rw [hb]
  simp [hc]

/- ## Claim-side notion of properly matched brackets (C1) -/

/-- Whether all `[` and `]` bytes of the program form a properly nested,
fully matched set, as claim C1 words it: a left-to-right scan where every
`]` must close an open `[` and everything is closed at the end. -/
def bracketsBalanced (prog : List Byte) : Bool :=
  (prog.foldl
    (fun acc b =>
      match acc with
      | none => none
      | some d =>
        if b = lbrB then some (d + 1)
        else if b = rbrB then (if d = 0 then none else some (d - 1))
        else some d)
    (some 0)) = some (0 : Nat)

/- ## Claim C1 -/

/-- Claim C1 (code_bug evaluation): the programs consisting of a lone `]`
and of `[]]`, whose brackets do not form a properly matched set, are both
accepted by src/bf.c's interpret (INT_SUCC) when run from the all-zero
initial tape with empty input.  The final `return bal ? INT_INVL :
INT_SUCC` only sees the residue of the most recent scan, so an unmatched
bracket whose scan never runs is not rejected, contradicting the claim
and the code's own comment (src/bf.c:138: the program is invalid if all
brackets don't match at the end). -/
theorem c1_unmatched_brackets_accepted :
    bracketsBalanced [rbrB] = false ∧
      Bf.interpret 0 accAll [rbrB] [] 2 =
        some (.INT_SUCC, ⟨1, 0, Tape.init, [], [], 0⟩) ∧
      bracketsBalanced [lbrB, rbrB, rbrB] = false ∧
      Bf.interpret 0 accAll [lbrB, rbrB, rbrB] [] 4 =
        some (.INT_SUCC, ⟨3, 0, Tape.init, [], [], 0⟩) := by
  decide

/- ## Claim C8 -/

/-- Claim C8 (code_bug evaluation): the forward scan triggered by `[` with
current cell 0 can read the byte at index `fsize`, one past the end of the
program buffer.  For the one-byte program `[`, the bf.c/brainfuck.c scan
(limit `fsize - 1`) reads exactly the index 1 = fsize; for the two-byte
program `[+`, the brainfuck/brainfuck.c scan (limit `fsize`) reads the
indices 1 and 2, the latter being fsize.  Both contradict the claim that
every index read during the scan is strictly below the program length. -/
theorem c8_oob_scan_read :
    fwdScanReads (fun j => ([lbrB] : List Byte).getD j 0)
        (([lbrB] : List Byte).length - 1) 1 0 = [1] ∧
      ¬ (1 < ([lbrB] : List Byte).length) ∧
      fwdScanReads (fun j => ([lbrB, plusB] : List Byte).getD j 0)
        ([lbrB, plusB] : List Byte).length 1 0 = [1, 2] ∧
      ¬ (2 < ([lbrB, plusB] : List Byte).length) := by
  decide

/- ## Claim C5 -/

/-- Claim C5: executing `,` with the input exhausted stores the EOF
sentinel 255 = the int -1 truncated to an unsigned char in the current
cell — for every prior cell value alike, so the policy is neither
leave-unchanged nor set-to-0 — and execution continues normally with the
following instruction, in every variant. -/
theorem c5_eof_sentinel (v : Variant) (oob : Byte) (wAcc : Nat → Bool)
    (prog : List Byte) (s : St) (_hi : s.i < prog.length)
    (hb : decode (prog.getD s.i 0) = .comma) (hin : s.inp = []) :
    execOne v oob wAcc prog s =
        .next { s with tape := s.tape.setC 255, i := s.i + 1 } ∧
      (s.tape.setC 255).c = 255 ∧ (255 : Byte) ≠ 0 :=
  ⟨execOne_comma_nil v oob wAcc prog s hb hin, rfl, by decide⟩

/-- Witness for C5 at the concrete program `,` with empty input. -/
theorem c5_eof_sentinel_witness :
    execOne bfVariant 0 accAll [commaB] (initSt []) =
        .next { initSt [] with tape := Tape.init.setC 255, i := 1 } ∧
      (Tape.init.setC 255).c = 255 ∧ (255 : Byte) ≠ 0 :=
  c5_eof_sentinel bfVariant 0 accAll [commaB] (initSt []) (by decide) (by decide) rfl

/- ## Counterexamples for C2, C3, C4, C7, C10 -/

/-- Claim C2 counterexample: for the one-byte program `[` run with the
current cell 0, the claim-side forward scan exhausts the program
(`specFwdMatch` is `none`), so the claim demands an UnmatchedBracket
failure; but bf.c's scan reads the byte one past the program buffer, and
when that unspecified byte happens to be `]` (93) the scan takes it for
the matching bracket and the run returns INT_SUCC. -/
theorem c2_counterexample :
    specFwdMatch [lbrB] 1 0 = none ∧
      Bf.interpret rbrB accAll [lbrB] [] 2 =
        some (.INT_SUCC, ⟨2, 0, Tape.init, [], [], 0⟩) ∧
      INT_STAT.INT_SUCC ≠ INT_STAT.INT_INVL := by
  decide

/-- Claim C3 counterexample: program `+[+]` at the `]` (index 3) with the
current cell nonzero: the backward scan stops at the matching `[` at
index 1, but the for loop's `++i` advances the program counter to 2, so
the instruction dispatched next is the one after the `[`, not the `[`
itself — its zero test is not re-evaluated. -/
theorem c3_counterexample :
    bwdScan (fun j => ([plusB, lbrB, plusB, rbrB] : List Byte).getD j 0) 1 3 = some 1 ∧
      execOne bfVariant 0 accAll [plusB, lbrB, plusB, rbrB]
          ⟨3, 0, ⟨[], 2, []⟩, [], [], 0⟩ =
        .next ⟨2, 0, ⟨[], 2, []⟩, [], [], 0⟩ ∧
      (2 : Nat) ≠ 1 := by
  decide

/-- Claim C4 counterexample: the echo program `,[.,]` on the input
consisting of the single byte 0 terminates successfully having written
nothing: the output is not the input, byte-for-byte. -/
theorem c4_counterexample :
    Bf.interpret 0 accAll echoProg [0] 4 =
        some (.INT_SUCC, ⟨5, 0, Tape.init, [], [], 0⟩) ∧
      ([] : List Byte) ≠ [0] := by
  decide

/-- Claim C7 counterexample: src/brainfuck.c ignores `putchar`'s result:
with every write rejected, the program `.+` still runs to INT_SUCC, and
the `+` after the rejected write executes (final cell 1, against the
claim that no further instruction runs). -/
theorem c7_counterexample :
    Brainfuck.interpret 0 (fun _ => false) [dotB, plusB] [] 3 =
        some (.INT_SUCC, ⟨2, 0, ⟨[], 1, []⟩, [], [], 1⟩) ∧
      INT_STAT.INT_SUCC ≠ INT_STAT.INT_IOERR := by
  decide

/-- Claim C10 counterexample: on the program `.` with the write rejected,
src/bf.c returns INT_IOERR while src/brainfuck.c returns success: the
three copies are not observationally equivalent. -/
theorem c10_counterexample :
    obs (Bf.interpret 0 (fun _ => false) [dotB] [] 2) = some (.INT_IOERR, []) ∧
      obs (Brainfuck.interpret 0 (fun _ => false) [dotB] [] 2) = some (.INT_SUCC, []) ∧
      INT_STAT.INT_IOERR ≠ INT_STAT.INT_SUCC := by
  decide

/- ## Backward scan lemmas and claim C3 -/

/-- A successful backward scan stops strictly left of where it started,
on a byte that reads as `[` (the only byte that can bring the balance
down to 0). -/
theorem bwdScan_some (g : Nat → Byte) :
    ∀ i bal m, bal ≠ 0 → bwdScan g bal i = some m → m < i ∧ g m = lbrB := by
  intro i
  induction i with
  | zero => intro bal m _ h; simp [bwdScan] at h
  | succ i ih =>
    intro bal m hbal h
    rw [bwdScan] at h
    by_cases hz : balStepB bal (g i) ≠ 0
    · rw [if_pos hz] at h
      have := ih _ m hz h
      exact ⟨by omega, this.2⟩
    · rw [if_neg hz] at h
      have hm : m = i := by
        have := Option.some.inj h
        omega
      subst hm
      refine ⟨by omega, ?_⟩
      by_contra hnot
      unfold balStepB at hz
      by_cases h1 : g m = rbrB
      · rw [if_pos h1] at hz; omega
      · rw [if_neg h1, if_neg hnot] at hz; omega

/-- Claim C3 (amended): when `]` executes with a nonzero current cell and
the backward scan succeeds stopping at index `m`, the byte at `m` is the
matching `[`, and the next state's program counter is `m + 1` — the scan
leaves `i` at the `[` itself, but the for loop's `++i` advances past it,
so the instruction dispatched next is the one immediately after the `[`
(the `['s` zero test is not re-evaluated). -/
theorem c3_backward_jump (v : Variant) (oob : Byte) (wAcc : Nat → Bool)
    (prog : List Byte) (s : St) (m : Nat) (hi : s.i < prog.length)
    (hb : decode (prog.getD s.i 0) = .rbr) (hc : s.tape.c ≠ 0)
    (hscan : bwdScan (fun j => prog.getD j oob) 1 s.i = some m) :
    execOne v oob wAcc prog s = .next { s with bal := 0, i := m + 1 } ∧
      m < s.i ∧ prog.getD m 0 = lbrB := by
  have hfacts := bwdScan_some (fun j => prog.getD j oob) s.i 1 m (by omega) hscan
  refine ⟨execOne_rbr_jump v oob wAcc prog s m hb hc hscan, hfacts.1, ?_⟩
  have hmlt : m < prog.length := by omega
  calc prog.getD m 0 = prog.getD m oob := getD_irrel prog m 0 oob hmlt
    _ = lbrB := hfacts.2

/-- Witness for C3 at the program `+[+]`, `]` executed at index 3 with
cell 2: the scan stops at the `[` at index 1 and the next dispatch is at
index 2. -/
theorem c3_backward_jump_witness :
    execOne bfVariant 0 accAll [plusB, lbrB, plusB, rbrB]
        ⟨3, 0, ⟨[], 2, []⟩, [], [], 0⟩ =
      .next { (⟨3, 0, ⟨[], 2, []⟩, [], [], 0⟩ : St) with bal := 0, i := 1 + 1 } ∧
      1 < 3 ∧ ([plusB, lbrB, plusB, rbrB] : List Byte).getD 1 0 = lbrB :=
  c3_backward_jump bfVariant 0 accAll [plusB, lbrB, plusB, rbrB]
    ⟨3, 0, ⟨[], 2, []⟩, [], [], 0⟩ 1 (by decide) (by decide) (by decide) (by decide)

/- ## Claim C7 -/

/-- Claim C7 (amended): when `.` executes and the write is rejected,
src/bf.c returns INT_IOERR immediately — the state (in particular the
output) is exactly what it was at the rejected write, and no further
instruction executes regardless of the remaining fuel; src/brainfuck.c
and src/brainfuck/brainfuck.c instead ignore the rejection and continue
with the next instruction, the byte unwritten. -/
theorem c7_write_rejected (oob : Byte) (wAcc : Nat → Bool) (prog : List Byte)
    (s : St) (fuel : Nat) (hi : s.i < prog.length)
    (hb : decode (prog.getD s.i 0) = .dot) (hw : wAcc s.nw = false) :
    loop bfVariant oob wAcc prog (fuel + 1) s = some (.INT_IOERR, s) ∧
      execOne brainfuckVariant oob wAcc prog s =
        .next { s with nw := s.nw + 1, i := s.i + 1 } ∧
      execOne brainfuckDirVariant oob wAcc prog s =
        .next { s with nw := s.nw + 1, i := s.i + 1 } := by
  refine ⟨?_, execOne_dot_rejected_nocheck brainfuckVariant oob wAcc prog s hb hw rfl,
    execOne_dot_rejected_nocheck brainfuckDirVariant oob wAcc prog s hb hw rfl⟩
  rw [loop, if_pos hi, execOne_dot_rejected_check bfVariant oob wAcc prog s hb hw rfl]

/-- Witness for C7 at the program `.` with every write rejected. -/
theorem c7_write_rejected_witness :
    loop bfVariant 0 (fun _ => false) [dotB] (0 + 1) (initSt []) =
        some (.INT_IOERR, initSt []) ∧
      execOne brainfuckVariant 0 (fun _ => false) [dotB] (initSt []) =
        .next { initSt [] with nw := 0 + 1, i := 0 + 1 } ∧
      execOne brainfuckDirVariant 0 (fun _ => false) [dotB] (initSt []) =
        .next { initSt [] with nw := 0 + 1, i := 0 + 1 } :=
  c7_write_rejected 0 (fun _ => false) [dotB] (initSt []) 0 (by decide) (by decide) rfl

/- ## Claim C9 -/

/-- Claim C9: tape persistence.  Any sequence of `<`/`>` moves re-indexes
the cells by its net displacement and loses no cell value — in
particular, a sequence of net displacement 0 returns to the same cell
with every cell value unchanged — and the writing operations (`+`, `-`
and the `,` store) change no cell other than the current one.  Cells,
once materialized, are never reset. -/
theorem c9_tape_persistence :
    (∀ (t : Tape) (ms : List Mv) (k : Int),
        (t.applyMoves ms).valueAt k = t.valueAt (k + mvDisp ms)) ∧
      (∀ (t : Tape) (k : Int), k ≠ 0 →
        t.inc.valueAt k = t.valueAt k ∧ t.dec.valueAt k = t.valueAt k ∧
          ∀ b : Byte, (t.setC b).valueAt k = t.valueAt k) := by
  constructor
  · intro t ms k
    exact Tape.applyMoves_valueAt ms t k
  · intro t k hk
    refine ⟨?_, ?_, fun b => ?_⟩ <;>
      (cases k with
       | ofNat n =>
         cases n with
         | zero => exact absurd rfl hk
         | succ n => rfl
       | negSucc n => rfl)

/-- Witness for C9: a `>` then `<` round trip preserves the current cell
of a concrete tape, and `+` leaves the right neighbour cell alone. -/
theorem c9_tape_persistence_witness :
    ((⟨[], 5, []⟩ : Tape).applyMoves [Mv.right, Mv.left]).valueAt 0 =
        (⟨[], 5, []⟩ : Tape).valueAt (0 + mvDisp [Mv.right, Mv.left]) ∧
      (⟨[], 5, []⟩ : Tape).inc.valueAt 1 = (⟨[], 5, []⟩ : Tape).valueAt 1 :=
  ⟨c9_tape_persistence.1 ⟨[], 5, []⟩ [Mv.right, Mv.left] 0,
   (c9_tape_persistence.2 ⟨[], 5, []⟩ 1 (by decide)).1⟩

/- ## Claim C6: cell arithmetic -/

/-- The `+` case. -/
theorem execOne_plus (v : Variant) (oob : Byte) (wAcc : Nat → Bool)
    (prog : List Byte) (s : St) (hb : decode (prog.getD s.i 0) = .plus) :
    execOne v oob wAcc prog s = .next { s with tape := s.tape.inc, i := s.i + 1 } := by
  unfold execOne
  rw [hb]

/-- The `-` case. -/
theorem execOne_minus (v : Variant) (oob : Byte) (wAcc : Nat → Bool)
    (prog : List Byte) (s : St) (hb : decode (prog.getD s.i 0) = .minus) :
    execOne v oob wAcc prog s = .next { s with tape := s.tape.dec, i := s.i + 1 } := by
  unfold execOne
  rw [hb]

/-- Running the rest of a pure `+`/`-` program adds the net count of the
remaining instructions to the current cell, modulo 256, and touches
nothing else. -/
theorem loop_plusminus (v : Variant) (oob : Byte) (wAcc : Nat → Bool)
    (prog : List Byte) (hpm : ∀ b ∈ prog, decode b = .plus ∨ decode b = .minus) :
    ∀ k s, s.i + k = prog.length →
      loop v oob wAcc prog (k + 1) s =
        some (if s.bal ≠ 0 then .INT_INVL else .INT_SUCC,
          ⟨prog.length, s.bal,
            ⟨s.tape.left, s.tape.c + ((netCount (prog.drop s.i) : Int) : Byte),
              s.tape.right⟩,
            s.inp, s.out, s.nw⟩) := by
  intro k
  induction k with
  | zero =>
    intro s hs
    have hnot : ¬ s.i < prog.length := by omega
    have hdrop : prog.drop s.i = [] := List.drop_eq_nil_of_le (by omega)
    rw [loop, if_neg hnot, hdrop]
    have hi : prog.length = s.i := by omega
    rw [hi]
    simp [netCount]
    by_cases hbal : s.bal = 0
    · simp [hbal]
      rw [← hbal]
    · simp [hbal]
  | succ k ih =>
    intro s hs
    have hlt : s.i < prog.length := by omega
    have hb : prog.getD s.i 0 = prog[s.i] := List.getD_eq_getElem prog 0 hlt
    have hdropeq : prog.drop s.i = prog[s.i] :: prog.drop (s.i + 1) :=
      List.drop_eq_getElem_cons hlt
    have hmem : prog[s.i] ∈ prog := List.getElem_mem hlt
    rcases hpm _ hmem with hp | hp
    · have hstep : loop v oob wAcc prog (k + 1 + 1) s =
          loop v oob wAcc prog (k + 1) { s with tape := s.tape.inc, i := s.i + 1 } := by
        rw [loop, if_pos hlt, execOne_plus v oob wAcc prog s (by rw [hb]; exact hp)]
      rw [hstep, ih { s with tape := s.tape.inc, i := s.i + 1 }
        (by show s.i + 1 + k = prog.length; omega)]
      rw [hdropeq]
      simp only [Tape.inc, netCount, hp, reduceIte, Option.some.injEq, Prod.mk.injEq,
        St.mk.injEq, Tape.mk.injEq, true_and, and_true]
      push_cast
      ring
    · have hstep : loop v oob wAcc prog (k + 1 + 1) s =
          loop v oob wAcc prog (k + 1) { s with tape := s.tape.dec, i := s.i + 1 } := by
        rw [loop, if_pos hlt, execOne_minus v oob wAcc prog s (by rw [hb]; exact hp)]
      rw [hstep, ih { s with tape := s.tape.dec, i := s.i + 1 }
        (by show s.i + 1 + k = prog.length; omega)]
      rw [hdropeq]
      simp only [Tape.dec, netCount, hp, reduceIte, Option.some.injEq, Prod.mk.injEq,
        St.mk.injEq, Tape.mk.injEq, true_and, and_true]
      push_cast
      ring

/-- Claim C6: a program consisting solely of `+` and `-` instructions,
run on a tape whose current cell holds v, terminates successfully with
the current cell holding v + n in ZMod 256 — i.e. (v + n) mod 256 — where
n : ℤ is the net count (increments minus decrements), and with every
other cell, the input and the output untouched.  The cell type is
ZMod 256, exactly unsigned 8-bit wraparound in both directions, never
wider or saturating; the second conjunct restates the result cell's
numeric value as ((v + n) mod 256) over the integers. -/
theorem c6_cell_arithmetic (v : Variant) (oob : Byte) (wAcc : Nat → Bool)
    (prog : List Byte) (inp : List Byte) (t : Tape)
    (hpm : ∀ b ∈ prog, decode b = .plus ∨ decode b = .minus) :
    loop v oob wAcc prog (prog.length + 1) ⟨0, 0, t, inp, [], 0⟩ =
      some (.INT_SUCC,
        ⟨prog.length, 0, ⟨t.left, t.c + ((netCount prog : Int) : Byte), t.right⟩,
          inp, [], 0⟩) ∧
      (t.c + ((netCount prog : Int) : Byte)).val =
        (((t.c.val : Int) + netCount prog) % 256).toNat := by
  constructor
  · have h := loop_plusminus v oob wAcc prog hpm prog.length ⟨0, 0, t, inp, [], 0⟩
      (by show 0 + prog.length = prog.length; omega)
    simpa using h
  · have h1 : t.c + ((netCount prog : Int) : Byte) =
        (((t.c.val : Int) + netCount prog : Int) : Byte) := by
      push_cast
      rw [ZMod.natCast_val, ZMod.cast_id]
    rw [h1]
    have h2 : ((((t.c.val : Int) + netCount prog : Int) : Byte).val : Int) =
        ((t.c.val : Int) + netCount prog) % 256 := ZMod.val_intCast _
    omega

set_option maxRecDepth 4096 in
/-- Witness for C6 at the program `++-` on a cell holding 255: the net
count is 1 and the cell wraps to 0. -/
theorem c6_cell_arithmetic_witness :
    loop bfVariant 0 accAll [plusB, plusB, minusB]
        (([plusB, plusB, minusB] : List Byte).length + 1)
        ⟨0, 0, ⟨[], 255, []⟩, [], [], 0⟩ =
      some (.INT_SUCC,
        ⟨([plusB, plusB, minusB] : List Byte).length, 0,
          ⟨[], (255 : Byte) + ((netCount [plusB, plusB, minusB] : Int) : Byte), []⟩,
          [], [], 0⟩) ∧
      ((255 : Byte) + ((netCount [plusB, plusB, minusB] : Int) : Byte)).val =
        ((((255 : Byte).val : Int) + netCount [plusB, plusB, minusB]) % 256).toNat :=
  c6_cell_arithmetic bfVariant 0 accAll [plusB, plusB, minusB] [] ⟨[], 255, []⟩ (by decide)

/- ## Claim C2: the forward jump -/

/-- One iteration of the dispatch loop that continues. -/
theorem loop_step_next (v : Variant) (oob : Byte) (wAcc : Nat → Bool)
    (prog : List Byte) (fuel : Nat) (s s' : St) (hi : s.i < prog.length)
    (hex : execOne v oob wAcc prog s = .next s') :
    loop v oob wAcc prog (fuel + 1) s = loop v oob wAcc prog fuel s' := by
  rw [loop, if_pos hi, hex]

/-- While the claim-side scan stays in bounds it reads the same bytes as
the C scan, so a successful claim-side match makes the
bf.c/brainfuck.c scan (limit fsize - 1) stop exactly there with balance
0 (counters aligned: the spec counter is one more than the scan
counter). -/
theorem specAux_some_imp_fwdScanAux (prog : List Byte) (oob : Byte) :
    ∀ k bal i m, bal ≠ 0 → k + i + 2 ≤ prog.length →
      specFwdMatchAux prog (k + 1) bal i = some m →
      fwdScanAux (fun j => prog.getD j oob) k bal i = (0, m) := by
  intro k
  induction k with
  | zero =>
    intro bal i m hbal hlen hspec
    simp only [specFwdMatchAux] at hspec
    have hg : prog.getD (i + 1) oob = prog.getD (i + 1) 0 :=
      getD_irrel prog (i + 1) oob 0 (by omega)
    by_cases hz : balStepF bal (prog.getD (i + 1) 0) = 0
    · rw [if_pos hz] at hspec
      have hm : m = i + 1 := (Option.some.inj hspec).symm
      subst hm
      simp only [fwdScanAux, hg, hz]
    · rw [if_neg hz] at hspec
      simp [specFwdMatchAux] at hspec
  | succ k ih =>
    intro bal i m hbal hlen hspec
    simp only [specFwdMatchAux] at hspec
    have hg : prog.getD (i + 1) oob = prog.getD (i + 1) 0 :=
      getD_irrel prog (i + 1) oob 0 (by omega)
    simp only [fwdScanAux, hg]
    by_cases hz : balStepF bal (prog.getD (i + 1) 0) = 0
    · rw [if_pos hz] at hspec
      have hm : m = i + 1 := (Option.some.inj hspec).symm
      subst hm
      rw [if_neg (fun h => h hz), hz]
    · rw [if_neg hz] at hspec
      rw [if_pos hz]
      exact ih _ (i + 1) m hz (by omega) hspec

/-- When the claim-side scan exhausts the program, the
bf.c/brainfuck.c scan ends with a nonzero balance at the last in-bounds
position it may visit. -/
theorem specAux_none_imp_fwdScanAux (prog : List Byte) (oob : Byte) :
    ∀ k bal i, bal ≠ 0 → k + i + 2 ≤ prog.length →
      specFwdMatchAux prog (k + 1) bal i = none →
      (fwdScanAux (fun j => prog.getD j oob) k bal i).1 ≠ 0 ∧
        (fwdScanAux (fun j => prog.getD j oob) k bal i).2 = i + k + 1 := by
  intro k
  induction k with
  | zero =>
    intro bal i hbal hlen hspec
    simp only [specFwdMatchAux] at hspec
    have hg : prog.getD (i + 1) oob = prog.getD (i + 1) 0 :=
      getD_irrel prog (i + 1) oob 0 (by omega)
    by_cases hz : balStepF bal (prog.getD (i + 1) 0) = 0
    · rw [if_pos hz] at hspec
      exact absurd hspec (by simp)
    · simp only [fwdScanAux, hg]
      exact ⟨hz, by trivial⟩
  | succ k ih =>
    intro bal i hbal hlen hspec
    simp only [specFwdMatchAux] at hspec
    have hg : prog.getD (i + 1) oob = prog.getD (i + 1) 0 :=
      getD_irrel prog (i + 1) oob 0 (by omega)
    simp only [fwdScanAux, hg]
    by_cases hz : balStepF bal (prog.getD (i + 1) 0) = 0
    · rw [if_pos hz] at hspec
      exact absurd hspec (by simp)
    · rw [if_neg hz] at hspec
      rw [if_pos hz]
      have := ih _ (i + 1) hz (by omega) hspec
      exact ⟨this.1, by omega⟩

/-- A successful claim-side match lies strictly ahead of the `[`, in
bounds, and on a `]` byte. -/
theorem specAux_some_facts (prog : List Byte) :
    ∀ k bal i m, bal ≠ 0 → k + i + 2 ≤ prog.length →
      specFwdMatchAux prog (k + 1) bal i = some m →
      i < m ∧ m < prog.length ∧ prog.getD m 0 = rbrB := by
  intro k
  induction k with
  | zero =>
    intro bal i m hbal hlen hspec
    simp only [specFwdMatchAux] at hspec
    by_cases hz : balStepF bal (prog.getD (i + 1) 0) = 0
    · rw [if_pos hz] at hspec
      have hm : m = i + 1 := (Option.some.inj hspec).symm
      subst hm
      refine ⟨by omega, by omega, ?_⟩
      unfold balStepF at hz
      by_cases h1 : prog.getD (i + 1) 0 = lbrB
      · rw [if_pos h1] at hz; omega
      · rw [if_neg h1] at hz
        by_cases h2 : prog.getD (i + 1) 0 = rbrB
        · exact h2
        · rw [if_neg h2] at hz; omega
    · rw [if_neg hz] at hspec
      simp [specFwdMatchAux] at hspec
  | succ k ih =>
    intro bal i m hbal hlen hspec
    simp only [specFwdMatchAux] at hspec
    by_cases hz : balStepF bal (prog.getD (i + 1) 0) = 0
    · rw [if_pos hz] at hspec
      have hm : m = i + 1 := (Option.some.inj hspec).symm
      subst hm
      refine ⟨by omega, by omega, ?_⟩
      unfold balStepF at hz
      by_cases h1 : prog.getD (i + 1) 0 = lbrB
      · rw [if_pos h1] at hz; omega
      · rw [if_neg h1] at hz
        by_cases h2 : prog.getD (i + 1) 0 = rbrB
        · exact h2
        · rw [if_neg h2] at hz; omega
    · rw [if_neg hz] at hspec
      have := ih _ (i + 1) m hz (by omega) hspec
      exact ⟨by omega, this.2⟩

/-- Wrapper for `specAux_some_imp_fwdScanAux` at the scan's entry point. -/
theorem specFwdMatch_some_fwdScan (prog : List Byte) (oob : Byte) (bal i m : Nat)
    (hbal : bal ≠ 0) (hin : i + 1 < prog.length)
    (hspec : specFwdMatch prog bal i = some m) :
    fwdScan (fun j => prog.getD j oob) (prog.length - 1) bal i = (0, m) := by
  unfold specFwdMatch at hspec
  unfold fwdScan
  have hk : prog.length - (i + 1) = (prog.length - i - 2) + 1 := by omega
  have hk2 : prog.length - 1 - (i + 1) = prog.length - i - 2 := by omega
  rw [hk] at hspec
  rw [hk2]
  exact specAux_some_imp_fwdScanAux prog oob _ bal i m hbal (by omega) hspec

/-- Wrapper for `specAux_none_imp_fwdScanAux` at the scan's entry point:
when the claim-side scan exhausts the program, the bf.c scan stops at
fsize - 1 with a nonzero balance. -/
theorem specFwdMatch_none_fwdScan (prog : List Byte) (oob : Byte) (bal i : Nat)
    (hbal : bal ≠ 0) (hin : i + 1 < prog.length)
    (hspec : specFwdMatch prog bal i = none) :
    (fwdScan (fun j => prog.getD j oob) (prog.length - 1) bal i).1 ≠ 0 ∧
      (fwdScan (fun j => prog.getD j oob) (prog.length - 1) bal i).2 =
        prog.length - 1 := by
  unfold specFwdMatch at hspec
  unfold fwdScan
  have hk : prog.length - (i + 1) = (prog.length - i - 2) + 1 := by omega
  have hk2 : prog.length - 1 - (i + 1) = prog.length - i - 2 := by omega
  rw [hk] at hspec
  rw [hk2]
  have := specAux_none_imp_fwdScanAux prog oob _ bal i hbal (by omega) hspec
  exact ⟨this.1, by omega⟩

/-- Wrapper for `specAux_some_facts` at the scan's entry point. -/
theorem specFwdMatch_some_facts (prog : List Byte) (bal i m : Nat)
    (hbal : bal ≠ 0) (hin : i + 1 < prog.length)
    (hspec : specFwdMatch prog bal i = some m) :
    i < m ∧ m < prog.length ∧ prog.getD m 0 = rbrB := by
  unfold specFwdMatch at hspec
  have hk : prog.length - (i + 1) = (prog.length - i - 2) + 1 := by omega
  rw [hk] at hspec
  exact specAux_some_facts prog _ bal i m hbal (by omega) hspec

/-- Claim C2 (amended): when `[` executes with the current cell 0 and the
`[` is not the final byte of the program, the in-bounds balance-counted
forward scan determines the jump exactly as the claim says: if the scan
exhausts the program, the run fails with INT_INVL and no further
instruction executes (the loop exits immediately, the output unchanged);
if it finds the matching `]` at index m, the next dispatched instruction
is at m + 1, one past the matching `]`.  (When the `[` is the program's
final byte, bf.c's scan reads the byte one past the buffer and the
verdict depends on that unspecified byte — see claims C8 and the C2
counterexample.) -/
theorem c2_forward_jump (oob : Byte) (wAcc : Nat → Bool) (prog : List Byte)
    (s : St) (hb : decode (prog.getD s.i 0) = .lbr) (hc : s.tape.c = 0)
    (hin : s.i + 1 < prog.length) :
    (specFwdMatch prog 1 s.i = none →
      ∀ fuel, obs (loop bfVariant oob wAcc prog (fuel + 2) s) =
        some (.INT_INVL, s.out)) ∧
    (∀ m, specFwdMatch prog 1 s.i = some m →
      execOne bfVariant oob wAcc prog s = .next { s with bal := 0, i := m + 1 } ∧
        s.i < m ∧ m < prog.length ∧ prog.getD m 0 = rbrB) := by
  have hi : s.i < prog.length := by omega
  have hstep := execOne_lbr_zero bfVariant oob wAcc prog s hb hc
  rw [show (if bfVariant.fwdFull then prog.length else prog.length - 1) =
    prog.length - 1 from rfl] at hstep
  constructor
  · intro hnone fuel
    have hsc := specFwdMatch_none_fwdScan prog oob 1 s.i (by omega) hin hnone
    rw [loop_step_next bfVariant oob wAcc prog (fuel + 1) s _ hi hstep, hsc.2, loop,
      if_neg (show ¬ (prog.length - 1 + 1 < prog.length) by omega),
      if_pos (show ({ s with
        bal := (fwdScan (fun j => prog.getD j oob) (prog.length - 1) 1 s.i).1,
        i := prog.length - 1 + 1 } : St).bal ≠ 0 from hsc.1)]
    rfl
  · intro m hsome
    have hsc := specFwdMatch_some_fwdScan prog oob 1 s.i m (by omega) hin hsome
    have hfacts := specFwdMatch_some_facts prog 1 s.i m (by omega) hin hsome
    refine ⟨?_, hfacts⟩
    rw [hstep, hsc]

/-- Witness for C2 at the program `[+]` entered with cell 0: the match is
at index 2 and the next dispatch is at index 3. -/
theorem c2_forward_jump_witness :
    execOne bfVariant 0 accAll [lbrB, plusB, rbrB] (initSt []) =
        .next { initSt [] with bal := 0, i := 2 + 1 } ∧
      0 < 2 ∧ 2 < ([lbrB, plusB, rbrB] : List Byte).length ∧
      ([lbrB, plusB, rbrB] : List Byte).getD 2 0 = rbrB :=
  (c2_forward_jump 0 accAll [lbrB, plusB, rbrB] (initSt [])
    (by decide) rfl (by decide)).2 2 (by decide)

/- ## Claim C4: the echo program -/

/-- The `.` case with the write accepted. -/
theorem execOne_dot_accept (v : Variant) (oob : Byte) (wAcc : Nat → Bool)
    (prog : List Byte) (s : St) (hb : decode (prog.getD s.i 0) = .dot)
    (hw : wAcc s.nw = true) :
    execOne v oob wAcc prog s =
      .next { s with out := s.out ++ [s.tape.c], nw := s.nw + 1, i := s.i + 1 } := by
  unfold execOne
  rw [hb]
  simp [hw]

/-- The `,` case with input available. -/
theorem execOne_comma_cons (v : Variant) (oob : Byte) (wAcc : Nat → Bool)
    (prog : List Byte) (s : St) (x : Byte) (rest : List Byte)
    (hb : decode (prog.getD s.i 0) = .comma) (hin : s.inp = x :: rest) :
    execOne v oob wAcc prog s =
      .next { s with tape := s.tape.setC x, inp := rest, i := s.i + 1 } := by
  unfold execOne
  rw [hb, hin]

/-- The `]` case with the current cell 0: fall through. -/
theorem execOne_rbr_zero (v : Variant) (oob : Byte) (wAcc : Nat → Bool)
    (prog : List Byte) (s : St) (hb : decode (prog.getD s.i 0) = .rbr)
    (hc : s.tape.c = 0) :
    execOne v oob wAcc prog s = .next { s with i := s.i + 1 } := by
  unfold execOne
  rw [hb]
  simp [hc]

/-- The `[` case with the current cell nonzero: fall through into the
loop body. -/
theorem execOne_lbr_nonzero (v : Variant) (oob : Byte) (wAcc : Nat → Bool)
    (prog : List Byte) (s : St) (hb : decode (prog.getD s.i 0) = .lbr)
    (hc : s.tape.c ≠ 0) :
    execOne v oob wAcc prog s = .next { s with i := s.i + 1 } := by
  unfold execOne
  rw [hb]
  simp [hc]

/-- The loop `[.,]` of the echo program, entered at the `.` with a
nonzero cell c and the rest of the input pending: as long as the bytes
read are nonzero they are echoed; the first zero byte read ends the run
successfully. -/
theorem echo_loop (l : List Byte) : ∀ (c : Byte), c ≠ 0 → (0 : Byte) ∈ l →
    ∀ out nw, ∃ fuel,
      obs (loop bfVariant 0 accAll echoProg fuel ⟨2, 0, ⟨[], c, []⟩, l, out, nw⟩) =
        some (.INT_SUCC, out ++ c :: l.takeWhile (fun b => b != 0)) := by
  induction l with
  | nil =>
    intro c hc h0
    simp at h0
  | cons r rs ih =>
    intro c hc h0 out nw
    have hi1 : (2 : Nat) < echoProg.length := by decide
    have s1 : execOne bfVariant 0 accAll echoProg ⟨2, 0, ⟨[], c, []⟩, r :: rs, out, nw⟩ =
        .next ⟨3, 0, ⟨[], c, []⟩, r :: rs, out ++ [c], nw + 1⟩ :=
      execOne_dot_accept bfVariant 0 accAll echoProg _
        (by decide : decode (echoProg.getD 2 0) = Instr.dot) rfl
    have hi2 : (3 : Nat) < echoProg.length := by decide
    have s2 : execOne bfVariant 0 accAll echoProg
          ⟨3, 0, ⟨[], c, []⟩, r :: rs, out ++ [c], nw + 1⟩ =
        .next ⟨4, 0, ⟨[], r, []⟩, rs, out ++ [c], nw + 1⟩ :=
      execOne_comma_cons bfVariant 0 accAll echoProg _ r rs
        (by decide : decode (echoProg.getD 3 0) = Instr.comma) rfl
    have hi3 : (4 : Nat) < echoProg.length := by decide
    by_cases hr : r = 0
    · subst hr
      have s3 : execOne bfVariant 0 accAll echoProg
            ⟨4, 0, ⟨[], 0, []⟩, rs, out ++ [c], nw + 1⟩ =
          .next ⟨5, 0, ⟨[], 0, []⟩, rs, out ++ [c], nw + 1⟩ :=
        execOne_rbr_zero bfVariant 0 accAll echoProg _
          (by decide : decode (echoProg.getD 4 0) = Instr.rbr) rfl
      refine ⟨3 + 1, ?_⟩
      rw [loop_step_next _ _ _ _ _ _ _ hi1 s1, loop_step_next _ _ _ _ _ _ _ hi2 s2,
        loop_step_next _ _ _ _ _ _ _ hi3 s3, loop]
      have hn5 : ¬ ((5 : Nat) < echoProg.length) := by decide
      simp [obs, List.takeWhile_cons, hn5]
    · have s3 : execOne bfVariant 0 accAll echoProg
            ⟨4, 0, ⟨[], r, []⟩, rs, out ++ [c], nw + 1⟩ =
          .next ⟨2, 0, ⟨[], r, []⟩, rs, out ++ [c], nw + 1⟩ :=
        execOne_rbr_jump bfVariant 0 accAll echoProg _ 1
          (by decide : decode (echoProg.getD 4 0) = Instr.rbr) hr
          (by decide : bwdScan (fun j => echoProg.getD j 0) 1 4 = some 1)
      have h0' : (0 : Byte) ∈ rs := by
        rcases List.mem_cons.mp h0 with h | h
        · exact absurd h.symm hr
        · exact h
      obtain ⟨f, hf⟩ := ih r hr h0' (out ++ [c]) (nw + 1)
      refine ⟨f + 3, ?_⟩
      rw [loop_step_next _ _ _ _ _ _ _ hi1 s1, loop_step_next _ _ _ _ _ _ _ hi2 s2,
        loop_step_next _ _ _ _ _ _ _ hi3 s3, hf]
      have hrb : (r != 0) = true := by simp [hr]
      simp [List.takeWhile_cons, hrb]

/-- Claim C4 (amended): for every input that contains a zero byte, the
echo program `,[.,]` terminates successfully having written exactly the
bytes that precede the first zero byte of the input. -/
theorem c4_echo (l : List Byte) (h0 : (0 : Byte) ∈ l) :
    ∃ fuel, obs (Bf.interpret 0 accAll echoProg l fuel) =
      some (.INT_SUCC, l.takeWhile (fun b => b != 0)) := by
  unfold Bf.interpret
  cases l with
  | nil => simp at h0
  | cons x xs =>
    have hi1 : (0 : Nat) < echoProg.length := by decide
    have s1 : execOne bfVariant 0 accAll echoProg (initSt (x :: xs)) =
        .next ⟨1, 0, ⟨[], x, []⟩, xs, [], 0⟩ :=
      execOne_comma_cons bfVariant 0 accAll echoProg _ x xs
        (by decide : decode (echoProg.getD 0 0) = Instr.comma) rfl
    have hi2 : (1 : Nat) < echoProg.length := by decide
    by_cases hx : x = 0
    · subst hx
      have s2 : execOne bfVariant 0 accAll echoProg ⟨1, 0, ⟨[], 0, []⟩, xs, [], 0⟩ =
          .next ⟨5, 0, ⟨[], 0, []⟩, xs, [], 0⟩ :=
        execOne_lbr_zero bfVariant 0 accAll echoProg _
          (by decide : decode (echoProg.getD 1 0) = Instr.lbr) rfl
      refine ⟨2 + 1, ?_⟩
      rw [loop_step_next _ _ _ _ _ _ _ hi1 s1, loop_step_next _ _ _ _ _ _ _ hi2 s2, loop]
      have hn5 : ¬ ((5 : Nat) < echoProg.length) := by decide
      simp [obs, List.takeWhile_cons, hn5]
    · have s2 : execOne bfVariant 0 accAll echoProg ⟨1, 0, ⟨[], x, []⟩, xs, [], 0⟩ =
          .next ⟨2, 0, ⟨[], x, []⟩, xs, [], 0⟩ :=
        execOne_lbr_nonzero bfVariant 0 accAll echoProg _
          (by decide : decode (echoProg.getD 1 0) = Instr.lbr) hx
      have h0' : (0 : Byte) ∈ xs := by
        rcases List.mem_cons.mp h0 with h | h
        · exact absurd h.symm hx
        · exact h
      obtain ⟨f, hf⟩ := echo_loop xs x hx h0' [] 0
      refine ⟨f + 2, ?_⟩
      rw [loop_step_next _ _ _ _ _ _ _ hi1 s1, loop_step_next _ _ _ _ _ _ _ hi2 s2, hf]
      have hxb : (x != 0) = true := by simp [hx]
      simp [List.takeWhile_cons, hxb]

/-- Witness for C4 at the input [1, 2, 0, 7]: the run terminates
successfully with output [1, 2]. -/
theorem c4_echo_witness :
    (0 : Byte) ∈ ([1, 2, 0, 7] : List Byte) ∧
      ∃ fuel, obs (Bf.interpret 0 accAll echoProg [1, 2, 0, 7] fuel) =
        some (.INT_SUCC, ([1, 2, 0, 7] : List Byte).takeWhile (fun b => b != 0)) :=
  ⟨by decide, c4_echo [1, 2, 0, 7] (by decide)⟩

/- ## Claim C10: comparing the three interpreters -/

/-- With every write accepted, the step functions of bf.c and
brainfuck.c coincide: their only difference is the `putchar` check, which
is reached only on a rejected write. -/
theorem execOne_bf_eq_brainfuck (oob : Byte) (prog : List Byte) (s : St) :
    execOne bfVariant oob accAll prog s =
      execOne brainfuckVariant oob accAll prog s := by
  cases hd : decode (prog.getD s.i 0) <;> (unfold execOne; rw [hd]) <;>
    simp [accAll, bfVariant, brainfuckVariant]

/-- With every write accepted, bf.c and brainfuck.c run identically. -/
theorem loop_bf_eq_brainfuck (oob : Byte) (prog : List Byte) :
    ∀ fuel s, loop bfVariant oob accAll prog fuel s =
      loop brainfuckVariant oob accAll prog fuel s := by
  intro fuel
  induction fuel with
  | zero => intro s; rfl
  | succ fuel ih =>
    intro s
    by_cases hi : s.i < prog.length
    · rw [loop, loop, if_pos hi, if_pos hi, execOne_bf_eq_brainfuck oob prog s]
      cases execOne brainfuckVariant oob accAll prog s with
      | halt r => rfl
      | next s' => exact ih s'
    · rw [loop, loop, if_neg hi, if_neg hi]

/-- A byte that is not `]` never lowers the forward balance, so it keeps
a nonzero balance nonzero. -/
theorem balStepF_ne (bal : Nat) (b : Byte) (hb : b ≠ rbrB) (hbal : bal ≠ 0) :
    balStepF bal b ≠ 0 := by
  unfold balStepF
  by_cases h1 : b = lbrB
  · rw [if_pos h1]; omega
  · rw [if_neg h1, if_neg hb]; exact hbal

/-- The two forward-scan bounds compared, counters aligned to the same
entry position: either both scans find the match (same balance-0 result),
or both exhaust with a nonzero balance, bf.c's stopping at fsize - 1 and
brainfuck/brainfuck.c's at fsize after additionally reading the
out-of-bounds byte (which, not being `]`, cannot zero the balance). -/
theorem fwdScanAux_limit_rel (prog : List Byte) (oob : Byte) (hoob : oob ≠ rbrB) :
    ∀ kA bal i, bal ≠ 0 → kA + i + 2 = prog.length →
      ((fwdScanAux (fun j => prog.getD j oob) kA bal i).1 = 0 ∧
        fwdScanAux (fun j => prog.getD j oob) (kA + 1) bal i =
          fwdScanAux (fun j => prog.getD j oob) kA bal i) ∨
      ((fwdScanAux (fun j => prog.getD j oob) kA bal i).1 ≠ 0 ∧
        (fwdScanAux (fun j => prog.getD j oob) (kA + 1) bal i).1 ≠ 0 ∧
        (fwdScanAux (fun j => prog.getD j oob) kA bal i).2 = prog.length - 1 ∧
        (fwdScanAux (fun j => prog.getD j oob) (kA + 1) bal i).2 = prog.length) := by
  intro kA
  induction kA with
  | zero =>
    intro bal i hbal hlen
    by_cases hz : balStepF bal (prog.getD (i + 1) oob) = 0
    · left
      constructor
      · simp only [fwdScanAux]; exact hz
      · simp only [fwdScanAux]
        rw [if_neg (fun h => h hz)]
    · right
      have hoobyte : prog.getD (i + 2) oob = oob :=
        List.getD_eq_default prog oob (by omega)
      refine ⟨by simp only [fwdScanAux]; exact hz, ?_, by simp only [fwdScanAux]; omega, ?_⟩
      · simp only [fwdScanAux]
        rw [if_pos hz]
        simp only [fwdScanAux, hoobyte]
        exact balStepF_ne _ oob hoob hz
      · simp only [fwdScanAux]
        rw [if_pos hz]
        simp only [fwdScanAux]
        omega
  | succ kA ih =>
    intro bal i hbal hlen
    by_cases hz : balStepF bal (prog.getD (i + 1) oob) = 0
    · left
      constructor
      · simp only [fwdScanAux]
        rw [if_neg (fun h => h hz)]
        exact hz
      · simp only [fwdScanAux]
        rw [if_neg (fun h => h hz), if_neg (fun h => h hz)]
    · have := ih (balStepF bal (prog.getD (i + 1) oob)) (i + 1) hz (by omega)
      rcases this with ⟨h1, h2⟩ | ⟨h1, h2, h3, h4⟩
      · left
        constructor
        · simp only [fwdScanAux]
          rw [if_pos hz]
          exact h1
        · simp only [fwdScanAux]
          rw [if_pos hz, if_pos hz]
          exact h2
      · right
        have eA : fwdScanAux (fun j => prog.getD j oob) (kA + 1) bal i =
            (if balStepF bal (prog.getD (i + 1) oob) ≠ 0 then
              fwdScanAux (fun j => prog.getD j oob) kA
                (balStepF bal (prog.getD (i + 1) oob)) (i + 1)
            else (balStepF bal (prog.getD (i + 1) oob), i + 1)) := rfl
        have eB : fwdScanAux (fun j => prog.getD j oob) (kA + 1 + 1) bal i =
            (if balStepF bal (prog.getD (i + 1) oob) ≠ 0 then
              fwdScanAux (fun j => prog.getD j oob) (kA + 1)
                (balStepF bal (prog.getD (i + 1) oob)) (i + 1)
            else (balStepF bal (prog.getD (i + 1) oob), i + 1)) := rfl
        rw [eA, eB, if_pos hz, if_pos hz]
        exact ⟨h1, h2, h3, h4⟩

/-- The two forward-scan bounds compared at the scan's entry point: both
scans agree on a found match; on exhaustion both end with a nonzero
balance and a position that puts the for loop past the end of the
program.  Needs the out-of-bounds byte not to read as `]`. -/
theorem fwdScan_limit_rel (prog : List Byte) (oob : Byte) (hoob : oob ≠ rbrB)
    (bal i : Nat) (hbal : bal ≠ 0) (hi : i < prog.length) :
    ((fwdScan (fun j => prog.getD j oob) (prog.length - 1) bal i).1 = 0 ∧
      fwdScan (fun j => prog.getD j oob) prog.length bal i =
        fwdScan (fun j => prog.getD j oob) (prog.length - 1) bal i) ∨
    ((fwdScan (fun j => prog.getD j oob) (prog.length - 1) bal i).1 ≠ 0 ∧
      (fwdScan (fun j => prog.getD j oob) prog.length bal i).1 ≠ 0 ∧
      prog.length ≤ (fwdScan (fun j => prog.getD j oob) (prog.length - 1) bal i).2 + 1 ∧
      prog.length ≤ (fwdScan (fun j => prog.getD j oob) prog.length bal i).2 + 1) := by
  unfold fwdScan
  by_cases hcorner : i + 1 < prog.length
  · have hkA : prog.length - 1 - (i + 1) = prog.length - i - 2 := by omega
    have hkB : prog.length - (i + 1) = (prog.length - i - 2) + 1 := by omega
    rw [hkA, hkB]
    rcases fwdScanAux_limit_rel prog oob hoob (prog.length - i - 2) bal i hbal (by omega)
      with ⟨h1, h2⟩ | ⟨h1, h2, h3, h4⟩
    · exact Or.inl ⟨h1, h2⟩
    · exact Or.inr ⟨h1, h2, by omega, by omega⟩
  · have hkA : prog.length - 1 - (i + 1) = 0 := by omega
    have hkB : prog.length - (i + 1) = 0 := by omega
    rw [hkA, hkB]
    have hoobyte : prog.getD (i + 1) oob = oob :=
      List.getD_eq_default prog oob (by omega)
    right
    simp only [fwdScanAux, hoobyte]
    exact ⟨balStepF_ne bal oob hoob hbal, balStepF_ne bal oob hoob hbal,
      by omega, by omega⟩

/-- With every write accepted and the out-of-bounds byte not `]`, one
dispatch iteration of bf.c and brainfuck/brainfuck.c either produces
identical results or sends both interpreters past the end of the program
with nonzero balances and equal outputs (a failed forward scan). -/
theorem execOne_bf_brDir_rel (oob : Byte) (hoob : oob ≠ rbrB) (prog : List Byte)
    (s : St) (hi : s.i < prog.length) :
    execOne bfVariant oob accAll prog s =
        execOne brainfuckDirVariant oob accAll prog s ∨
    (∃ sA sB, execOne bfVariant oob accAll prog s = .next sA ∧
      execOne brainfuckDirVariant oob accAll prog s = .next sB ∧
      prog.length ≤ sA.i ∧ prog.length ≤ sB.i ∧ sA.bal ≠ 0 ∧ sB.bal ≠ 0 ∧
      sA.out = sB.out) := by
  cases hd : decode (prog.getD s.i 0) with
  | plus => left; unfold execOne; rw [hd]
  | minus => left; unfold execOne; rw [hd]
  | left => left; unfold execOne; rw [hd]
  | right => left; unfold execOne; rw [hd]
  | dot => left; unfold execOne; rw [hd]; simp [accAll]
  | comma => left; unfold execOne; rw [hd]
  | rbr => left; unfold execOne; rw [hd]
  | nop => left; unfold execOne; rw [hd]
  | lbr =>
    by_cases hc : s.tape.c = 0
    · have hA := execOne_lbr_zero bfVariant oob accAll prog s hd hc
      have hB := execOne_lbr_zero brainfuckDirVariant oob accAll prog s hd hc
      rw [show (if bfVariant.fwdFull then prog.length else prog.length - 1) =
        prog.length - 1 from rfl] at hA
      rw [show (if brainfuckDirVariant.fwdFull then prog.length else prog.length - 1) =
        prog.length from rfl] at hB
      rcases fwdScan_limit_rel prog oob hoob 1 s.i (by omega) hi
        with ⟨h1, h2⟩ | ⟨h1, h2, h3, h4⟩
      · left
        rw [hA, hB, h2]
      · right
        refine ⟨_, _, hA, hB, ?_, ?_, h1, h2, rfl⟩
        · show prog.length ≤
            (fwdScan (fun j => prog.getD j oob) (prog.length - 1) 1 s.i).2 + 1
          omega
        · show prog.length ≤
            (fwdScan (fun j => prog.getD j oob) prog.length 1 s.i).2 + 1
          omega
    · left
      rw [execOne_lbr_nonzero bfVariant oob accAll prog s hd hc,
        execOne_lbr_nonzero brainfuckDirVariant oob accAll prog s hd hc]

/-- The bisimulation: from related states (equal, or both past the
program's end with nonzero balance and equal output), bf.c and
brainfuck/brainfuck.c produce the same status and output. -/
theorem loop_bf_brDir (oob : Byte) (hoob : oob ≠ rbrB) (prog : List Byte) :
    ∀ fuel s t,
      (s = t ∨ (prog.length ≤ s.i ∧ prog.length ≤ t.i ∧ s.bal ≠ 0 ∧ t.bal ≠ 0 ∧
        s.out = t.out)) →
      obs (loop bfVariant oob accAll prog fuel s) =
        obs (loop brainfuckDirVariant oob accAll prog fuel t) := by
  intro fuel
  induction fuel with
  | zero => intro s t _; rfl
  | succ fuel ih =>
    intro s t hR
    rcases hR with rfl | ⟨h1, h2, h3, h4, h5⟩
    · by_cases hi : s.i < prog.length
      · rcases execOne_bf_brDir_rel oob hoob prog s hi
          with heq | ⟨sA, sB, hA, hB, hb1, hb2, hb3, hb4, hb5⟩
        · rw [loop, loop, if_pos hi, if_pos hi, heq]
          cases execOne brainfuckDirVariant oob accAll prog s with
          | halt r => rfl
          | next s' => exact ih s' s' (Or.inl rfl)
        · rw [loop, loop, if_pos hi, if_pos hi, hA, hB]
          exact ih sA sB (Or.inr ⟨hb1, hb2, hb3, hb4, hb5⟩)
      · rw [loop, loop, if_neg hi, if_neg hi]
    · have hi1 : ¬ s.i < prog.length := by omega
      have hi2 : ¬ t.i < prog.length := by omega
      rw [loop, loop, if_neg hi1, if_neg hi2, if_pos h3, if_pos h4]
      simp [obs, h5]

/-- Claim C10 (amended): with every write accepted, bf.c and brainfuck.c
run identically (they differ only in the putchar check); and provided
additionally that the unspecified byte one past the program buffer does
not read as `]`, brainfuck/brainfuck.c also produces the same status and
output as bf.c on every program, input, and fuel.  (With a rejected write
the copies disagree — see the counterexample; and when a forward scan
runs off the end, brainfuck/brainfuck.c's bound makes it read the byte
one past the buffer, so its verdict can depend on that byte where bf.c's
does not.) -/
theorem c10_equivalence (oob : Byte) (hoob : oob ≠ rbrB) (prog inp : List Byte)
    (fuel : Nat) :
    obs (Bf.interpret oob accAll prog inp fuel) =
        obs (Brainfuck.interpret oob accAll prog inp fuel) ∧
      obs (Bf.interpret oob accAll prog inp fuel) =
        obs (BrainfuckDir.interpret oob accAll prog inp fuel) := by
  constructor
  · unfold Bf.interpret Brainfuck.interpret
    rw [loop_bf_eq_brainfuck oob prog fuel (initSt inp)]
  · unfold Bf.interpret BrainfuckDir.interpret
    exact loop_bf_brDir oob hoob prog fuel (initSt inp) (initSt inp) (Or.inl rfl)

/-- Witness for C10 at the program `+.` with empty input and all writes
accepted. -/
theorem c10_equivalence_witness :
    obs (Bf.interpret 0 accAll [plusB, dotB] [] 4) =
        obs (Brainfuck.interpret 0 accAll [plusB, dotB] [] 4) ∧
      obs (Bf.interpret 0 accAll [plusB, dotB] [] 4) =
        obs (BrainfuckDir.interpret 0 accAll [plusB, dotB] [] 4) :=
  c10_equivalence 0 (by decide) [plusB, dotB] [] 4
